import Mathlib

set_option linter.unusedVariables false

/-!
Verification model of BioSwitch (`bio_switch.py`): the recursive signal
waveform model (`Signal`), the schedule compiler
(`WorkingThread.generate_event_queue`), the relay controller
(`RelayController.send_cmd`) and the execution loop (`WorkingThread.run`).
Python integers are modelled as `Int`; a Python exception escaping a
function is modelled by `Option`/sum results.
-/

namespace BioSwitch

/-- MAX_CHANNEL_N from the source. -/
def MAX_CHANNEL_N : Int := 8

/-- A constructed `Signal` instance is either atomic (`length`, `state`)
or combined (`sub_signals`, `cycle`), mirroring the two init branches of
class `Signal`. -/
inductive Signal : Type where
  | atomic (length : Int) (state : Int) : Signal
  | combined (sub_signals : List Signal) (cycle : Int) : Signal
deriving Repr

/-- One entry of the array produced by `Signal.dump`: the dict
with keys "length" (an absolute timestamp) and "state". -/
structure Event where
  length : Int
  state : Int
deriving Repr, DecidableEq

/-- Timestamp of the last event of a dump fragment, with a default used
when the fragment is empty (the running `start` variable of
`__dumpCombined` keeps its previous value exactly in that situation). -/
def lastLenD (l : List Event) (d : Int) : Int :=
  match l.getLast? with
  | none => d
  | some e => e.length

/-- Body of `Signal.__dumpAtomic`: a single event at `length + start`. -/
def dumpAtomic (length state start : Int) : List Event :=
  [Event.mk (length + start) state]

mutual

/-- `Signal.dump(start)`.  `none` models an exception escaping the dump
(the `result[-1]` IndexError of `__dumpCombined` when `result` is still
empty). -/
def dump (sig : Signal) (start : Int) : Option (List Event) :=
  match sig with
  | .atomic len st => some (dumpAtomic len st start)
  | .combined subs cyc => dumpCycles subs cyc.toNat start []
termination_by (sizeOf sig, 1, 0)
decreasing_by
  apply Prod.Lex.left
  simp only [Signal.combined.sizeOf_spec]
  omega

/-- The `for i in range(self.cycle)` loop of `Signal.__dumpCombined`;
`n` is the number of remaining iterations (`range` of a non-positive
cycle is empty, hence `Int.toNat` at the call site), `acc` the `result`
list accumulated so far and `start` the running start offset. -/
def dumpCycles (subs : List Signal) (n : Nat) (start : Int)
    (acc : List Event) : Option (List Event) :=
  match n with
  | 0 => some acc
  | Nat.succ m =>
    match dumpPass subs start acc with
    | none => none
    | some (acc2, start2) => dumpCycles subs m start2 acc2
termination_by (sizeOf subs, 1, n)
decreasing_by
  · apply Prod.Lex.right
    apply Prod.Lex.left
    omega
  · apply Prod.Lex.right
    apply Prod.Lex.right
    omega

/-- The inner `for signal in self.sub_signals` loop of
`Signal.__dumpCombined`: dump each sub-signal, append it to `result`,
then set `start = result[-1]["length"]` (IndexError, modelled as `none`,
when `result` is empty at that point). -/
def dumpPass (subs : List Signal) (start : Int)
    (acc : List Event) : Option (List Event × Int) :=
  match subs with
  | [] => some (acc, start)
  | sig :: rest =>
    match dump sig start with
    | none => none
    | some evts =>
      match (acc ++ evts).getLast? with
      | none => none
      | some last => dumpPass rest last.length (acc ++ evts)
termination_by (sizeOf subs, 0, 0)
decreasing_by
  · apply Prod.Lex.left
    simp only [List.cons.sizeOf_spec]
    omega
  · apply Prod.Lex.left
    simp only [List.cons.sizeOf_spec]
    omega

end

/-- Number of events `dump` emits for a spec-valid signal: 1 for an
atomic signal, `cycle * sum over children` for a combined one. -/
def eventCount : Signal → Nat
  | .atomic _ _ => 1
  | .combined subs cyc =>
      cyc.toNat * (subs.attach.map (fun x => eventCount x.1)).sum
termination_by sig => sizeOf sig
decreasing_by
  have hm := List.sizeOf_lt_of_mem x.2
  simp only [Signal.combined.sizeOf_spec]
  omega

/-- Total time span a spec-valid signal occupies: its length for an
atomic signal, `cycle * sum of children spans` for a combined one. -/
def span : Signal → Int
  | .atomic len _ => len
  | .combined subs cyc =>
      (cyc.toNat : Int) * (subs.attach.map (fun x => span x.1)).sum
termination_by sig => sizeOf sig
decreasing_by
  have hm := List.sizeOf_lt_of_mem x.2
  simp only [Signal.combined.sizeOf_spec]
  omega

/-- The values accepted by the source's `Signal.__init__` validation:
an atomic signal needs `length > 0` (and both `length` and `state`
distinct from the `-1` defaults, or the atomic branch is not taken),
a combined signal needs a non-empty (truthy) `sub_signals` list whose
items are all `Signal` instances (hence themselves validated) and a
truthy (non-zero) integer `cycle`. -/
def validSig : Signal → Bool
  | .atomic len st => decide (0 < len) && decide (st ≠ -1)
  | .combined subs cyc =>
      decide (cyc ≠ 0) && !subs.isEmpty &&
        subs.attach.all (fun x => validSig x.1)
termination_by sig => sizeOf sig
decreasing_by
  have hm := List.sizeOf_lt_of_mem x.2
  simp only [Signal.combined.sizeOf_spec]
  omega

/-- The spec's construction invariants (spec section 3/4.1): atomic
duration positive; combined `repeat_count >= 1` with a non-empty
children sequence, recursively. -/
def specValid : Signal → Bool
  | .atomic len _ => decide (0 < len)
  | .combined subs cyc =>
      decide (1 ≤ cyc) && !subs.isEmpty &&
        subs.attach.all (fun x => specValid x.1)
termination_by sig => sizeOf sig
decreasing_by
  have hm := List.sizeOf_lt_of_mem x.2
  simp only [Signal.combined.sizeOf_spec]
  omega

/-- One entry of the `channels` hash of a run config, in the order the
Python `for name in channels` dict iteration yields it: the channel
name (the dict key), the `"channel"` index and the parsed `"signal"`. -/
structure ChannelConfig where
  name : String
  channel : Int
  signal : Signal

/-- An event of the global queue built by
`WorkingThread.generate_event_queue`: the dumped dict extended with
the `"channel"` and `"name"` keys. -/
structure QEvent where
  length : Int
  state : Int
  channel : Int
  name : String
deriving Repr, DecidableEq

/-- Tag every dumped event of one channel with its channel index and
name (the `for event in chnl_events` loop). -/
def tagEvents (ch : ChannelConfig) (evts : List Event) : List QEvent :=
  evts.map (fun e => QEvent.mk e.length e.state ch.channel ch.name)

/-- Events contributed by one channel: `signal.dump()` (start offset
defaults to 0) tagged with channel and name. -/
def channelEvents (ch : ChannelConfig) : Option (List QEvent) :=
  (dump ch.signal 0).map (tagEvents ch)

/-- The `for name in channels` loop: concatenate every channel's tagged
events in iteration order (`events += chnl_events`). -/
def collectEvents : List ChannelConfig → Option (List QEvent)
  | [] => some []
  | ch :: rest =>
    match channelEvents ch, collectEvents rest with
    | some e, some r => some (e ++ r)
    | _, _ => none

/-- Insert an event into an already-processed list, before the first
entry whose `length` is not smaller.  Folding this over the input is a
stable sort by `length`, extensionally equal to the stable
`events.sort(key=lambda x: x["length"])` of the source. -/
def insertEv (e : QEvent) : List QEvent → List QEvent
  | [] => [e]
  | x :: xs => if x.length < e.length then x :: insertEv e xs else e :: x :: xs

/-- Stable ascending sort by the `length` key, modelling
`events.sort(key=lambda x: x["length"])`. -/
def sortEvents (l : List QEvent) : List QEvent := l.foldr insertEv []

/-- `WorkingThread.generate_event_queue`: collect every channel's
dumped, tagged events in dict-iteration order and sort them (stably)
by timestamp.  `none` models an exception escaping a `dump`. -/
def generate_event_queue (channels : List ChannelConfig) : Option (List QEvent) :=
  (collectEvents channels).map sortEvents

/-- Observable steps of `WorkingThread.run`: the interruptible sleep,
dispatching one event to the relay (`handle_event` / `send_cmd`),
clearing the cancellation event (`self.event.clear()`), the
`stop_all` all-channels-off reset, and the assignment
`self.state = STATUS_IDLE`. -/
inductive Action : Type where
  | sleep (t : Int) : Action
  | dispatch (e : QEvent) : Action
  | clearCancel : Action
  | stopAll : Action
  | setIdle : Action
deriving Repr, DecidableEq

/-- The `while` loop of `WorkingThread.run`.  `cancel k` tells whether
the cancellation event (set by `stop()`) is observed during the `k`-th
`self.event.wait(sleep_time)`; `runTime` is the `run_time` variable and
`events` the remaining queue.  On a wait that observes cancellation the
loop clears the event and breaks; otherwise `run_time` advances to the
head timestamp and the inner `while` dispatches every event whose
`length` equals the new `run_time`. -/
def runLoop (cancel : Nat → Bool) (k : Nat) (runTime : Int)
    (events : List QEvent) : List Action :=
  match events with
  | [] => []
  | e :: rest =>
    if cancel k then
      [Action.sleep (e.length - runTime), Action.clearCancel]
    else
      Action.sleep (e.length - runTime) ::
        ((e :: rest.takeWhile (fun x => x.length == e.length)).map Action.dispatch ++
          runLoop cancel (k + 1) e.length
            (rest.dropWhile (fun x => x.length == e.length)))
termination_by events.length
decreasing_by
  simp only [List.length_cons]
  exact Nat.lt_succ_of_le (List.Sublist.length_le (List.dropWhile_sublist _))

/-- `WorkingThread.run` after the event queue has been generated: the
loop, then `self.state = STATUS_IDLE`, then `self.control.stop_all()`,
then `cleanup()` (which clears the cancellation event and sets the
state to idle again). -/
def runThread (cancel : Nat → Bool) (events : List QEvent) : List Action :=
  runLoop cancel 0 0 events ++
    [Action.setIdle, Action.stopAll, Action.clearCancel, Action.setIdle]

/-- Actions that execute schedule work: waiting for or dispatching a
scheduled event.  The shutdown actions (reset, state change, clearing
the flag) are not schedule work. -/
def isWorkAction : Action → Bool
  | Action.sleep _ => true
  | Action.dispatch _ => true
  | _ => false

/-- Holds when, after every occurrence of `clearCancel` in the trace,
no schedule work (no sleep, no dispatch) happens any more: observing
cancellation terminates the replay at once. -/
def cancelStopsWork : List Action → Bool
  | [] => true
  | Action.clearCancel :: rest =>
      rest.all (fun a => !isWorkAction a) && cancelStopsWork rest
  | _ :: rest => cancelStopsWork rest

/-- The durations passed to `self.event.wait` in a trace, in order. -/
def sleepTimes : List Action → List Int
  | [] => []
  | Action.sleep t :: rest => t :: sleepTimes rest
  | _ :: rest => sleepTimes rest

/-- The two values of `WorkingThread.state`. -/
inductive EngineState : Type where
  | idle : EngineState
  | working : EngineState
deriving Repr, DecidableEq

/-- Outcome of `WorkingThread.start`: the engine state when the call
returns, whether a background thread was spawned, and whether an
initialization failure was reported to the log. -/
structure StartResult where
  state : EngineState
  spawned : Bool
  reportedInitFailure : Bool
deriving Repr, DecidableEq

/-- `WorkingThread.start(config, port)`: build the `RelayController`
first; if that raises (`initFails`), log the failure and return without
touching the state; otherwise set the state to working and spawn the
background thread. -/
def threadStart (st : EngineState) (initFails : Bool) : StartResult :=
  if initFails then StartResult.mk st false true
  else StartResult.mk EngineState.working true false

/-- `RelayController.send_cmd(channel, value)` with the module-level
`DEBUG` flag passed explicitly (the source sets `DEBUG = 1`).  In debug
mode the function returns at once, writing nothing and validating
nothing.  Otherwise an out-of-range channel raises (`Except.error`) and
an in-range one writes the 5-byte frame
`0xFF, channel, value, channel + value, 0xEE` after normalizing a
truthy value to 1. -/
def send_cmd (debug : Bool) (channel value : Int) : Except String (List Int) :=
  if debug then Except.ok []
  else if channel ≤ 0 ∨ channel > MAX_CHANNEL_N then
    Except.error ("channel number (" ++ toString channel ++
      ") should follow 0<ch<=8")
  else
    Except.ok [0xFF, channel, if value ≠ 0 then 1 else 0,
      channel + (if value ≠ 0 then 1 else 0), 0xEE]

/-- The `DEBUG = 1` constant of the source. -/
def DEBUG : Bool := true

/-- `Signal.err(self, s)` is `self.err(s)`: it calls itself with the
same arguments.  Modelled with explicit call-stack fuel; `some msg`
would be a raised validation error carrying the message, `none` is the
interpreter aborting the unbounded recursion (Python's maximum
recursion depth RuntimeError, whose message does not carry `s`). -/
def err (fuel : Nat) (s : String) : Option String :=
  match fuel with
  | 0 => none
  | Nat.succ m => err m s

/-- Result of running `Signal.__init__`: a constructed instance, a
raised validation error identifying the offending field and value, or
a crash of the error reporter itself. -/
inductive InitOutcome : Type where
  | ok (sig : Signal) : InitOutcome
  | validationError (msg : String) : InitOutcome
  | crashed : InitOutcome
deriving Repr

/-- Lift the result of `self.err(...)` into the constructor outcome. -/
def errOutcome (fuel : Nat) (s : String) : InitOutcome :=
  match err fuel s with
  | some m => InitOutcome.validationError m
  | none => InitOutcome.crashed

/-- `Signal.__init__(length, state, sub_signals, cycle)` with the source
defaults `length=-1, state=-1, sub_signals=[], cycle=1`.  The atomic
branch is taken when both `length` and `state` differ from `-1`; its
`type(...) != type(1)` checks cannot fail in this integer-typed model,
leaving the `length <= 0` check.  The combined branch is taken when
`sub_signals` and `cycle` are both truthy; every item is a `Signal` by
typing, so only the `type(cycle)` check (vacuous here) runs.  Any other
combination reaches the final `self.err(...)` call. -/
def signalInit (fuel : Nat) (length state : Int) (sub_signals : List Signal)
    (cycle : Int) : InitOutcome :=
  if length ≠ -1 ∧ state ≠ -1 then
    if length ≤ 0 then
      errOutcome fuel ("length (" ++ toString length ++
        ") should be greater than zero")
    else InitOutcome.ok (Signal.atomic length state)
  else if ¬ sub_signals.isEmpty ∧ cycle ≠ 0 then
    InitOutcome.ok (Signal.combined sub_signals cycle)
  else
    errOutcome fuel ("Failed to init Signal instance, param not right")

/-- A dump fragment whose timestamps strictly increase and all lie
strictly after the start offset. -/
def strictChain (start : Int) (evts : List Event) : Prop :=
  evts.Pairwise (fun a b => a.length < b.length) ∧ ∀ e ∈ evts, start < e.length

theorem eventCount_combined (subs : List Signal) (cyc : Int) :
    eventCount (Signal.combined subs cyc) =
      cyc.toNat * (subs.map eventCount).sum := by
  rw [eventCount, List.attach_map_val subs eventCount]

theorem span_combined (subs : List Signal) (cyc : Int) :
    span (Signal.combined subs cyc) =
      (cyc.toNat : Int) * (subs.map span).sum := by
  rw [span, List.attach_map_val subs span]

theorem specValid_combined {subs : List Signal} {cyc : Int} :
    specValid (Signal.combined subs cyc) = true ↔
      1 ≤ cyc ∧ subs ≠ [] ∧ ∀ s ∈ subs, specValid s = true := by
  rw [specValid]
  simp [List.all_eq_true, List.isEmpty_iff, and_assoc]

theorem validSig_combined {subs : List Signal} {cyc : Int} :
    validSig (Signal.combined subs cyc) = true ↔
      cyc ≠ 0 ∧ subs ≠ [] ∧ ∀ s ∈ subs, validSig s = true := by
  rw [validSig]
  simp [List.all_eq_true, List.isEmpty_iff, and_assoc]

theorem err_eq_none (fuel : Nat) (s : String) : err fuel s = none := by
  induction fuel with
  | zero => rw [err]
  | succ m ih => rw [err]; exact ih

theorem lastLenD_append (a b : List Event) (d : Int) :
    lastLenD (a ++ b) d = lastLenD b (lastLenD a d) := by
  cases b with
  | nil => simp [lastLenD]
  | cons x xs =>
    obtain ⟨y, hy⟩ := Option.isSome_iff_exists.mp
      (List.getLast?_isSome.mpr (show x :: xs ≠ [] by simp))
    rw [lastLenD, lastLenD, List.getLast?_append_of_ne_nil _
      (show x :: xs ≠ [] by simp), hy]

theorem lastLenD_nil (d : Int) : lastLenD [] d = d := rfl

theorem eventCount_pos (sig : Signal) (h : specValid sig = true) :
    0 < eventCount sig :=
  match sig, h with
  | .atomic len st, _ => by rw [eventCount]; decide
  | .combined subs cyc, h => by
    rw [specValid_combined] at h
    obtain ⟨h1, h2, h3⟩ := h
    rw [eventCount_combined]
    obtain ⟨s0, ss, heq⟩ := List.exists_cons_of_ne_nil h2
    have hs0 : 0 < eventCount s0 :=
      eventCount_pos s0 (h3 s0 (by rw [heq]; simp))
    have hcy : 0 < cyc.toNat := by omega
    refine Nat.mul_pos hcy ?_
    rw [heq]
    simp only [List.map_cons, List.sum_cons]
    omega
termination_by sizeOf sig
decreasing_by
  have hmem : s0 ∈ subs := by rw [heq]; simp
  have := List.sizeOf_lt_of_mem hmem
  simp only [Signal.combined.sizeOf_spec]
  omega

theorem dumpPass_spec (subs : List Signal)
    (IH : ∀ s ∈ subs, ∀ start : Int, ∃ evts, dump s start = some evts ∧
      evts ≠ [] ∧ evts.length = eventCount s ∧
      lastLenD evts start = start + span s) :
    ∀ (start : Int) (acc : List Event), ∃ new,
      dumpPass subs start acc =
        some (acc ++ new, start + (subs.map span).sum) ∧
      new.length = (subs.map eventCount).sum ∧
      lastLenD new start = start + (subs.map span).sum := by
  induction subs with
  | nil =>
    intro start acc
    refine ⟨[], ?_, rfl, ?_⟩
    · rw [dumpPass]
      simp
    · simp [lastLenD]
  | cons s rest ih =>
    intro start acc
    obtain ⟨evts, hd, hne, hlen, hlast⟩ := IH s (by simp) start
    obtain ⟨last, hl⟩ := Option.isSome_iff_exists.mp
      (List.getLast?_isSome.mpr hne)
    have hll : last.length = start + span s := by
      rw [lastLenD, hl] at hlast
      exact hlast
    have hga : (acc ++ evts).getLast? = some last := by
      rw [List.getLast?_append_of_ne_nil _ hne]
      exact hl
    obtain ⟨new2, hpass2, hlen2, hlast2⟩ :=
      ih (fun x hx => IH x (by simp [hx])) last.length (acc ++ evts)
    refine ⟨evts ++ new2, ?_, ?_, ?_⟩
    · rw [dumpPass]
      simp only [hd, hga, hpass2, Option.some.injEq, Prod.mk.injEq]
      refine ⟨List.append_assoc acc evts new2, ?_⟩
      rw [hll]
      simp only [List.map_cons, List.sum_cons]
      ring
    · simp only [List.length_append, hlen, hlen2, List.map_cons, List.sum_cons]
    · rw [lastLenD_append]
      have hle : lastLenD evts start = last.length := by
        rw [lastLenD, hl]
      rw [hle, hlast2, hll]
      simp only [List.map_cons, List.sum_cons]
      ring

theorem dumpCycles_spec (subs : List Signal)
    (IH : ∀ s ∈ subs, ∀ start : Int, ∃ evts, dump s start = some evts ∧
      evts ≠ [] ∧ evts.length = eventCount s ∧
      lastLenD evts start = start + span s) :
    ∀ (n : Nat) (start : Int) (acc : List Event), ∃ new,
      dumpCycles subs n start acc = some (acc ++ new) ∧
      new.length = n * (subs.map eventCount).sum ∧
      lastLenD new start = start + (n : Int) * (subs.map span).sum := by
  intro n
  induction n with
  | zero =>
    intro start acc
    refine ⟨[], ?_, by simp, by simp [lastLenD]⟩
    rw [dumpCycles]
    simp
  | succ m ihm =>
    intro start acc
    obtain ⟨new1, hpass, hlen1, hlast1⟩ := dumpPass_spec subs IH start acc
    obtain ⟨new2, hcyc, hlen2, hlast2⟩ :=
      ihm (start + (subs.map span).sum) (acc ++ new1)
    refine ⟨new1 ++ new2, ?_, ?_, ?_⟩
    · rw [dumpCycles]
      simp only [hpass, hcyc, List.append_assoc]
    · simp only [List.length_append, hlen1, hlen2]
      ring
    · rw [lastLenD_append, hlast1, hlast2]
      push_cast
      ring

theorem dump_spec (sig : Signal) (h : specValid sig = true) :
    ∀ start : Int, ∃ evts, dump sig start = some evts ∧ evts ≠ [] ∧
      evts.length = eventCount sig ∧
      lastLenD evts start = start + span sig :=
  match sig, h with
  | .atomic len st, h => by
    intro start
    refine ⟨[Event.mk (len + start) st], ?_, by simp, by simp [eventCount], ?_⟩
    · rw [dump]
      rfl
    · rw [span]
      simp [lastLenD, Int.add_comm]
  | .combined subs cyc, h => by
    intro start
    rw [specValid_combined] at h
    obtain ⟨h1, h2, h3⟩ := h
    have IH : ∀ s ∈ subs, ∀ st : Int, ∃ evts, dump s st = some evts ∧
        evts ≠ [] ∧ evts.length = eventCount s ∧
        lastLenD evts st = st + span s :=
      fun s hs => dump_spec s (h3 s hs)
    obtain ⟨new, hcyc, hlen, hlast⟩ := dumpCycles_spec subs IH cyc.toNat start []
    have hcnt : 0 < (subs.map eventCount).sum := by
      obtain ⟨s0, ss, rfl⟩ := List.exists_cons_of_ne_nil h2
      have := eventCount_pos s0 (h3 s0 (by simp))
      simp only [List.map_cons, List.sum_cons]
      omega
    refine ⟨new, ?_, ?_, ?_, ?_⟩
    · rw [dump]
      exact hcyc.trans (by rw [List.nil_append])
    · apply List.ne_nil_of_length_pos
      rw [hlen]
      have : 0 < cyc.toNat := by omega
      exact Nat.mul_pos this hcnt
    · rw [hlen, eventCount_combined]
    · rw [hlast, span_combined]
termination_by sizeOf sig
decreasing_by
  have := List.sizeOf_lt_of_mem hs
  simp only [Signal.combined.sizeOf_spec]
  omega

/-- C1: compiling an atomic waveform of positive duration `L` and state
`S` at start offset `T` yields exactly the one-element sequence
`[(T + L, S)]` (`__dumpAtomic` computes `self.length + start`). -/
theorem c1_atomic_compile (L S T : Int) (h : 0 < L) :
    dump (Signal.atomic L S) T = some [Event.mk (T + L) S] := by
  simp [dump, dumpAtomic, Int.add_comm]

/-- Witness for C1 at `L = 3`, `S = 1`, `T = 7`. -/
theorem c1_atomic_compile_witness :
    0 < (3 : Int) ∧ dump (Signal.atomic 3 1) 7 = some [Event.mk (7 + 3) 1] :=
  ⟨by decide, c1_atomic_compile 3 1 7 (by decide)⟩

/-- C2: compiling a combined waveform with non-empty (spec-valid)
children and repeat count `C >= 1` at offset `T` succeeds, produces
exactly `C * sum(eventCount(ci))` events, and its final timestamp is
`T + C * (sum of the children's spans)`. -/
theorem c2_combined_count_and_final_time (subs : List Signal) (C T : Int)
    (h1 : subs ≠ []) (h2 : 1 ≤ C) (h3 : ∀ s ∈ subs, specValid s = true) :
    ∃ evts, dump (Signal.combined subs C) T = some evts ∧ evts ≠ [] ∧
      evts.length = C.toNat * (subs.map eventCount).sum ∧
      lastLenD evts T = T + C * (subs.map span).sum := by
  have hv : specValid (Signal.combined subs C) = true :=
    specValid_combined.mpr ⟨h2, h1, h3⟩
  obtain ⟨evts, hd, hne, hlen, hlast⟩ := dump_spec _ hv T
  refine ⟨evts, hd, hne, ?_, ?_⟩
  · rw [hlen, eventCount_combined]
  · rw [hlast, span_combined, Int.toNat_of_nonneg (show (0:Int) ≤ C by omega)]

/-- Witness for C2 with children `atomic 2 1, atomic 3 0`, repeat 2,
start offset 5 (events at 7, 10, 12, 15). -/
theorem c2_combined_count_and_final_time_witness :
    ([Signal.atomic 2 1, Signal.atomic 3 0] ≠ ([] : List Signal)) ∧
    (1 : Int) ≤ 2 ∧
    (∃ evts,
      dump (Signal.combined [Signal.atomic 2 1, Signal.atomic 3 0] 2) 5 =
        some evts ∧ evts ≠ [] ∧
      evts.length = (2 : Int).toNat *
        ([Signal.atomic 2 1, Signal.atomic 3 0].map eventCount).sum ∧
      lastLenD evts 5 = 5 + 2 *
        ([Signal.atomic 2 1, Signal.atomic 3 0].map span).sum) :=
  ⟨by simp, by decide,
    c2_combined_count_and_final_time [Signal.atomic 2 1, Signal.atomic 3 0] 2 5
      (by simp) (by decide)
      (by
        intro s hs
        simp only [List.mem_cons, List.not_mem_nil, or_false] at hs
        rcases hs with rfl | rfl <;> (rw [specValid]; decide))⟩

/-- C4 counterexample: the constructor accepts a combined signal with
the truthy cycle `-1` (only zero is rejected).  Such a signal dumps to
the empty list, but wrapping it in a single-child combined signal with
`repeat = 1` makes `__dumpCombined` evaluate `result[-1]` on an empty
`result` - an IndexError (`none`) instead of that child's own (empty)
expansion. -/
theorem c4_empty_child_counterexample :
    validSig (Signal.combined [Signal.atomic 1 0] (-1)) = true ∧
    dump (Signal.combined [Signal.atomic 1 0] (-1)) 0 = some [] ∧
    dump (Signal.combined [Signal.combined [Signal.atomic 1 0] (-1)] 1) 0 =
      none := by
  refine ⟨?_, ?_, ?_⟩
  · rw [validSig_combined]
    refine ⟨by decide, by simp, ?_⟩
    intro s hs
    simp only [List.mem_singleton] at hs
    subst hs
    rw [validSig]
    decide
  · rw [dump]
    rw [show ((-1 : Int)).toNat = 0 from rfl, dumpCycles]
  · rw [dump]
    rw [show ((1 : Int)).toNat = Nat.succ 0 from rfl, dumpCycles]
    have hinner : dump (Signal.combined [Signal.atomic 1 0] (-1)) 0 = some [] := by
      rw [dump]
      rw [show ((-1 : Int)).toNat = 0 from rfl, dumpCycles]
    rw [dumpPass]
    simp [hinner]

/-- C4 amended: a combined waveform with a single child `c` and repeat
count 1 compiles at `T` to exactly the child's own expansion at `T`,
provided that expansion is not the empty event list (which only a
spec-invalid, non-positive-cycle child can produce; on such a child the
wrapper raises IndexError instead). -/
theorem c4_degenerate_combined (c : Signal) (T : Int)
    (h : dump c T ≠ some []) :
    dump (Signal.combined [c] 1) T = dump c T := by
  rw [dump, show ((1 : Int)).toNat = Nat.succ 0 from rfl, dumpCycles]
  cases hd : dump c T with
  | none => simp [dumpPass, hd]
  | some evts =>
    have hne : evts ≠ [] := by
      intro he
      exact h (by rw [hd, he])
    obtain ⟨last, hl⟩ := Option.isSome_iff_exists.mp
      (List.getLast?_isSome.mpr hne)
    rw [dumpPass]
    simp only [hd, List.nil_append, hl]
    simp only [dumpPass]
    rw [dumpCycles]

/-- Witness for C4 amended at `c = atomic 7 1`, `T = 3`. -/
theorem c4_degenerate_combined_witness :
    dump (Signal.atomic 7 1) 3 ≠ some [] ∧
    dump (Signal.combined [Signal.atomic 7 1] 1) 3 = dump (Signal.atomic 7 1) 3 :=
  ⟨by simp [dump, dumpAtomic], c4_degenerate_combined (Signal.atomic 7 1) 3
    (by simp [dump, dumpAtomic])⟩

/-- C5 (code bug): feeding `Signal.__init__` the invalid atomic input
`length = 0, state = 1` never produces the `ValidationError` the spec
requires.  The reporter `Signal.err` is `self.err(s)` - it calls itself
with unchanged arguments, so for every call-stack budget construction
aborts with the interpreter's recursion-depth error (`crashed`), whose
message does not identify the offending field or value. -/
theorem c5_err_recurses_forever :
    ∀ fuel : Nat, signalInit fuel 0 1 [] 1 = InitOutcome.crashed ∧
      ∀ msg, signalInit fuel 0 1 [] 1 ≠ InitOutcome.validationError msg := by
  intro fuel
  have h : signalInit fuel 0 1 [] 1 = InitOutcome.crashed := by
    simp [signalInit, errOutcome, err_eq_none]
  refine ⟨h, ?_⟩
  intro msg hc
  rw [h] at hc
  exact InitOutcome.noConfusion hc

/-- C8: when building the `RelayController` raises, `start` logs the
initialization failure and returns at once: the state field is left
untouched (an idle engine stays idle) and no background thread is
spawned. -/
theorem c8_init_failure_keeps_idle :
    threadStart EngineState.idle true =
      StartResult.mk EngineState.idle false true ∧
    ∀ st : EngineState,
      (threadStart st true).spawned = false ∧ (threadStart st true).state = st := by
  exact ⟨rfl, fun st => ⟨rfl, rfl⟩⟩

/-- C9 counterexample: the source sets `DEBUG = 1`, and `send_cmd`
returns before any validation or write in debug mode, so the call with
the out-of-range channel 9 does not fail with any error. -/
theorem c9_debug_counterexample :
    send_cmd DEBUG 9 1 = Except.ok [] ∧
      ∀ msg, send_cmd DEBUG 9 1 ≠ Except.error msg := by
  refine ⟨rfl, ?_⟩
  intro msg hc
  exact Except.noConfusion hc

/-- C9 amended: with the debug flag off, a channel outside `[1, 8]`
raises the channel-range error, and an in-range channel with a 0/1
value writes the 5-byte frame `0xFF, channel, value, channel + value,
0xEE`. -/
theorem c9_send_cmd_no_debug (ch v : Int) :
    (ch ≤ 0 ∨ ch > MAX_CHANNEL_N →
      send_cmd false ch v = Except.error ("channel number (" ++ toString ch ++
        ") should follow 0<ch<=8")) ∧
    (1 ≤ ch → ch ≤ MAX_CHANNEL_N → v = 0 ∨ v = 1 →
      send_cmd false ch v = Except.ok [0xFF, ch, v, ch + v, 0xEE]) := by
  constructor
  · intro h
    simp [send_cmd, h]
  · intro h1 h2 hv
    have hc : ¬(ch ≤ 0 ∨ ch > MAX_CHANNEL_N) := by
      simp only [MAX_CHANNEL_N] at h2 ⊢
      omega
    rcases hv with rfl | rfl <;> simp [send_cmd, hc]

/-- Witness for C9 amended at channel 9 (error) and channel 3, value 1
(frame write). -/
theorem c9_send_cmd_no_debug_witness :
    ((9 : Int) ≤ 0 ∨ (9 : Int) > MAX_CHANNEL_N) ∧
    send_cmd false 9 1 = Except.error ("channel number (" ++ toString (9 : Int) ++
      ") should follow 0<ch<=8") ∧
    send_cmd false 3 1 = Except.ok [0xFF, 3, 1, 3 + 1, 0xEE] :=
  ⟨by decide, (c9_send_cmd_no_debug 9 1).1 (by decide),
    (c9_send_cmd_no_debug 3 1).2 (by decide) (by decide) (Or.inr rfl)⟩

theorem insertEv_perm (e : QEvent) (l : List QEvent) :
    (insertEv e l).Perm (e :: l) := by
  induction l with
  | nil => rw [insertEv]
  | cons x xs ih =>
    rw [insertEv]
    by_cases h : x.length < e.length
    · rw [if_pos h]
      exact (ih.cons x).trans (List.Perm.swap e x xs)
    · rw [if_neg h]

theorem insertEv_pairwise (e : QEvent) (l : List QEvent)
    (hp : l.Pairwise (fun a b => a.length ≤ b.length)) :
    (insertEv e l).Pairwise (fun a b => a.length ≤ b.length) := by
  induction l with
  | nil => simp [insertEv]
  | cons x xs ih =>
    rw [List.pairwise_cons] at hp
    obtain ⟨hx, hxs⟩ := hp
    rw [insertEv]
    by_cases h : x.length < e.length
    · rw [if_pos h]
      rw [List.pairwise_cons]
      refine ⟨?_, ih hxs⟩
      intro y hy
      have hy2 := (insertEv_perm e xs).mem_iff.mp hy
      simp only [List.mem_cons] at hy2
      rcases hy2 with rfl | hy2
      · omega
      · exact hx y hy2
    · rw [if_neg h]
      rw [List.pairwise_cons]
      refine ⟨?_, by rw [List.pairwise_cons]; exact ⟨hx, hxs⟩⟩
      intro y hy
      simp only [List.mem_cons] at hy
      rcases hy with rfl | hy
      · omega
      · have := hx y hy
        omega

theorem sortEvents_perm (l : List QEvent) : (sortEvents l).Perm l := by
  induction l with
  | nil => rw [sortEvents]; rfl
  | cons x xs ih =>
    have hstep : sortEvents (x :: xs) = insertEv x (sortEvents xs) := rfl
    rw [hstep]
    exact (insertEv_perm x (sortEvents xs)).trans (ih.cons x)

theorem sortEvents_pairwise (l : List QEvent) :
    (sortEvents l).Pairwise (fun a b => a.length ≤ b.length) := by
  induction l with
  | nil => simp [sortEvents]
  | cons x xs ih => exact insertEv_pairwise x (sortEvents xs) ih

theorem insertEv_filter (e : QEvent) (l : List QEvent) (t : Int) :
    (insertEv e l).filter (fun x => x.length == t) =
      if e.length = t then e :: l.filter (fun x => x.length == t)
      else l.filter (fun x => x.length == t) := by
  induction l with
  | nil =>
    rw [insertEv]
    by_cases h : e.length = t <;> simp [List.filter_cons, h]
  | cons x xs ih =>
    rw [insertEv]
    by_cases h : x.length < e.length
    · rw [if_pos h, List.filter_cons, List.filter_cons, ih]
      by_cases he : e.length = t
      · have hx : ¬ x.length = t := by omega
        simp [he, hx, beq_iff_eq]
      · by_cases hx : x.length = t <;> simp [he, hx, beq_iff_eq]
    · rw [if_neg h, List.filter_cons]
      by_cases he : e.length = t <;> simp [he, beq_iff_eq]

theorem sortEvents_filter (l : List QEvent) (t : Int) :
    (sortEvents l).filter (fun x => x.length == t) =
      l.filter (fun x => x.length == t) := by
  induction l with
  | nil => rfl
  | cons x xs ih =>
    have hstep : sortEvents (x :: xs) = insertEv x (sortEvents xs) := rfl
    rw [hstep, insertEv_filter, List.filter_cons]
    by_cases hx : x.length = t
    · rw [if_pos hx, ih, if_pos (by simpa using hx)]
    · rw [if_neg hx, ih, if_neg (by simpa using hx)]

/-- C3 counterexample: for the config whose dict iteration yields name
"b" (channel 2, atomic 5/1) before name "a" (channel 1, atomic 5/0),
the generated queue holds two events with equal timestamp 5 ordered
channel 2 before channel 1: the sort key is the timestamp alone and the
stable sort keeps dict-iteration order on ties, so equal-timestamp
events are not ordered by ascending channel id. -/
theorem c3_tiebreak_counterexample :
    generate_event_queue
      [ChannelConfig.mk "b" 2 (Signal.atomic 5 1),
       ChannelConfig.mk "a" 1 (Signal.atomic 5 0)] =
      some [QEvent.mk 5 1 2 "b", QEvent.mk 5 0 1 "a"] ∧
    ¬ List.Pairwise (fun x y : QEvent => x.length = y.length → x.channel ≤ y.channel)
        [QEvent.mk 5 1 2 "b", QEvent.mk 5 0 1 "a"] := by
  constructor
  · have hb : dump (Signal.atomic 5 1) 0 = some [Event.mk 5 1] := by
      rw [dump]
      rfl
    have ha : dump (Signal.atomic 5 0) 0 = some [Event.mk 5 0] := by
      rw [dump]
      rfl
    simp [generate_event_queue, collectEvents, channelEvents, hb, ha,
      tagEvents, sortEvents, insertEv]
  · decide

/-- C3 amended: the generated queue is sorted non-decreasing by
timestamp and is a permutation of the concatenated per-channel tagged
events; among events of equal timestamp the order is exactly the order
of the concatenation (dict-iteration order over channels, emission
order within a channel) - the sort is stable, but nothing orders ties
by ascending channel id.  Determinism holds relative to that iteration
order: the compiler is a pure function of it. -/
theorem c3_schedule_sorted_and_stable (channels : List ChannelConfig)
    (out : List QEvent) (h : generate_event_queue channels = some out) :
    out.Pairwise (fun a b => a.length ≤ b.length) ∧
    ∀ raw, collectEvents channels = some raw →
      out.Perm raw ∧
      ∀ t, out.filter (fun x => x.length == t) =
        raw.filter (fun x => x.length == t) := by
  rw [generate_event_queue] at h
  cases hc : collectEvents channels with
  | none =>
    rw [hc] at h
    exact absurd h (by simp)
  | some raw0 =>
    rw [hc] at h
    have h2 : sortEvents raw0 = out := by simpa using h
    subst h2
    refine ⟨sortEvents_pairwise raw0, ?_⟩
    intro raw hraw
    injection hraw with hraw2
    subst hraw2
    exact ⟨sortEvents_perm raw0, fun t => sortEvents_filter raw0 t⟩

/-- Witness for C3 amended on the two-channel config of the
counterexample (equal timestamps, iteration order "b" then "a"). -/
theorem c3_schedule_sorted_and_stable_witness :
    generate_event_queue
      [ChannelConfig.mk "b" 2 (Signal.atomic 5 1),
       ChannelConfig.mk "a" 1 (Signal.atomic 5 0)] =
      some [QEvent.mk 5 1 2 "b", QEvent.mk 5 0 1 "a"] ∧
    ([QEvent.mk 5 1 2 "b", QEvent.mk 5 0 1 "a"].Pairwise
      (fun a b => a.length ≤ b.length) ∧
    ∀ raw, collectEvents
        [ChannelConfig.mk "b" 2 (Signal.atomic 5 1),
         ChannelConfig.mk "a" 1 (Signal.atomic 5 0)] = some raw →
      ([QEvent.mk 5 1 2 "b", QEvent.mk 5 0 1 "a"] : List QEvent).Perm raw ∧
      ∀ t, ([QEvent.mk 5 1 2 "b", QEvent.mk 5 0 1 "a"] : List QEvent).filter
          (fun x => x.length == t) = raw.filter (fun x => x.length == t)) := by
  have hb : dump (Signal.atomic 5 1) 0 = some [Event.mk 5 1] := by
    rw [dump]
    rfl
  have ha : dump (Signal.atomic 5 0) 0 = some [Event.mk 5 0] := by
    rw [dump]
    rfl
  have hq : generate_event_queue
      [ChannelConfig.mk "b" 2 (Signal.atomic 5 1),
       ChannelConfig.mk "a" 1 (Signal.atomic 5 0)] =
      some [QEvent.mk 5 1 2 "b", QEvent.mk 5 0 1 "a"] := by
    simp [generate_event_queue, collectEvents, channelEvents, hb, ha,
      tagEvents, sortEvents, insertEv]
  exact ⟨hq, c3_schedule_sorted_and_stable _ _ hq⟩

theorem runLoop_count_stopAll (cancel : Nat → Bool) (k : Nat) (rt : Int)
    (events : List QEvent) :
    (runLoop cancel k rt events).count Action.stopAll = 0 :=
  match events with
  | [] => by rw [runLoop]; rfl
  | e :: rest => by
    rw [runLoop]
    by_cases h : cancel k
    · rw [if_pos h]
      simp [List.count_cons]
    · rw [if_neg h]
      have hmap : ∀ p : List QEvent,
          (p.map Action.dispatch).count Action.stopAll = 0 := by
        intro p
        rw [List.count_eq_zero]
        simp [List.mem_map]
      have hrec := runLoop_count_stopAll cancel (k + 1) e.length
        (rest.dropWhile (fun x => x.length == e.length))
      simp [List.count_cons, List.count_append, hmap, hrec, beq_iff_eq]
termination_by events.length
decreasing_by
  simp only [List.length_cons]
  exact Nat.lt_succ_of_le (List.Sublist.length_le (List.dropWhile_sublist _))

theorem cancelStopsWork_dispatch_skip (p : List QEvent) (r : List Action) :
    cancelStopsWork (p.map Action.dispatch ++ r) = cancelStopsWork r := by
  induction p with
  | nil => rfl
  | cons x xs ih =>
    rw [List.map_cons, List.cons_append]
    simp only [cancelStopsWork]
    exact ih

theorem runLoop_cancelStopsWork (cancel : Nat → Bool) (k : Nat) (rt : Int)
    (events : List QEvent) (tail : List Action)
    (h1 : tail.all (fun a => !isWorkAction a) = true)
    (h2 : cancelStopsWork tail = true) :
    cancelStopsWork (runLoop cancel k rt events ++ tail) = true :=
  match events with
  | [] => by
    rw [runLoop, List.nil_append]
    exact h2
  | e :: rest => by
    rw [runLoop]
    by_cases h : cancel k
    · rw [if_pos h]
      simp only [List.cons_append, List.nil_append]
      simp only [cancelStopsWork]
      rw [h1, h2]
      rfl
    · rw [if_neg h]
      simp only [List.cons_append, List.append_assoc]
      simp only [cancelStopsWork]
      simp only [List.append_eq, ← List.append_assoc]
      rw [List.append_assoc, cancelStopsWork_dispatch_skip]
      exact runLoop_cancelStopsWork cancel (k + 1) e.length
        (rest.dropWhile (fun x => x.length == e.length)) tail h1 h2
termination_by events.length
decreasing_by
  simp only [List.length_cons]
  exact Nat.lt_succ_of_le (List.Sublist.length_le (List.dropWhile_sublist _))

theorem sleepTimes_dispatch_skip (p : List QEvent) (r : List Action) :
    sleepTimes (p.map Action.dispatch ++ r) = sleepTimes r := by
  induction p with
  | nil => rfl
  | cons x xs ih =>
    rw [List.map_cons, List.cons_append]
    simp only [sleepTimes]
    exact ih

theorem runLoop_sleepTimes_nonneg (cancel : Nat → Bool) (k : Nat) (rt : Int)
    (events : List QEvent)
    (hp : events.Pairwise (fun a b => a.length ≤ b.length))
    (hge : ∀ e ∈ events, rt ≤ e.length) :
    ∀ t ∈ sleepTimes (runLoop cancel k rt events), 0 ≤ t :=
  match events, hp, hge with
  | [], _, _ => by
    rw [runLoop]
    simp [sleepTimes]
  | e :: rest, hp, hge => by
    intro t ht
    rw [runLoop] at ht
    by_cases h : cancel k
    · rw [if_pos h] at ht
      simp only [sleepTimes] at ht
      have he := hge e (by simp)
      simp only [List.mem_singleton] at ht
      omega
    · rw [if_neg h] at ht
      simp only [sleepTimes] at ht
      simp only [List.append_eq] at ht
      rw [sleepTimes_dispatch_skip] at ht
      rcases List.mem_cons.mp ht with rfl | ht2
      · have he := hge e (by simp)
        omega
      · obtain ⟨hrel, hrest⟩ := List.pairwise_cons.mp hp
        refine runLoop_sleepTimes_nonneg cancel (k + 1) e.length
          (rest.dropWhile (fun x => x.length == e.length)) ?_ ?_ t ht2
        · exact hrest.sublist (List.dropWhile_sublist _)
        · intro x hx
          exact hrel x (List.Sublist.mem hx (List.dropWhile_sublist _))
termination_by events.length
decreasing_by
  simp only [List.length_cons]
  exact Nat.lt_succ_of_le (List.Sublist.length_le (List.dropWhile_sublist _))

/-- C6: for every cancellation pattern and every event queue, the run
issues the all-channels-off reset exactly once; after any clearing of
the cancellation signal (which happens exactly when a wait observes
cancellation, and again during final cleanup) no further sleep and no
further event dispatch occurs - remaining events are discarded; and
the trace ends with the engine set idle. -/
theorem c6_cancel_clears_and_resets_once (cancel : Nat → Bool)
    (events : List QEvent) :
    (runThread cancel events).count Action.stopAll = 1 ∧
    cancelStopsWork (runThread cancel events) = true ∧
    (runThread cancel events).getLast? = some Action.setIdle := by
  refine ⟨?_, ?_, ?_⟩
  · rw [runThread, List.count_append, runLoop_count_stopAll]
    rfl
  · rw [runThread]
    exact runLoop_cancelStopsWork cancel 0 0 events _ (by decide) (by decide)
  · rw [runThread, List.getLast?_append_of_ne_nil _ (by simp)]
    rfl

theorem pairwise_le_lastLenD (evts : List Event) (d : Int) :
    evts.Pairwise (fun a b => a.length < b.length) →
    ∀ e ∈ evts, e.length ≤ lastLenD evts d := by
  induction evts with
  | nil => simp
  | cons x xs ih =>
    intro hp e he
    obtain ⟨hx, hxs⟩ := List.pairwise_cons.mp hp
    cases xs with
    | nil =>
      simp only [List.mem_singleton] at he
      subst he
      simp [lastLenD]
    | cons y ys =>
      have hL : lastLenD (x :: y :: ys) d = lastLenD (y :: ys) d := by
        rw [lastLenD, List.getLast?_cons_cons, lastLenD]
      rw [hL]
      rcases List.mem_cons.mp he with rfl | he2
      · have hlt : e.length < y.length := hx y (by simp)
        have hle : y.length ≤ lastLenD (y :: ys) d := ih hxs y (by simp)
        omega
      · exact ih hxs e he2

theorem dumpPass_chain (subs : List Signal)
    (IH : ∀ s ∈ subs, ∀ (start : Int) (evts : List Event),
      dump s start = some evts → strictChain start evts) :
    ∀ (start : Int) (acc out : List Event) (fin : Int),
      acc.Pairwise (fun a b => a.length < b.length) →
      (∀ e ∈ acc, e.length ≤ start) →
      lastLenD acc start = start →
      dumpPass subs start acc = some (out, fin) →
      out.Pairwise (fun a b => a.length < b.length) ∧
      (∃ new, out = acc ++ new ∧ ∀ e ∈ new, start < e.length) ∧
      (∀ e ∈ out, e.length ≤ fin) ∧ start ≤ fin ∧ lastLenD out fin = fin := by
  induction subs with
  | nil =>
    intro start acc out fin hp hle hlast hps
    rw [dumpPass] at hps
    have heq := Option.some.inj hps
    have h1 : acc = out := congrArg Prod.fst heq
    have h2 : start = fin := congrArg Prod.snd heq
    subst h1
    subst h2
    exact ⟨hp, ⟨[], by simp, by simp⟩, hle, le_refl _, hlast⟩
  | cons s rest ih =>
    intro start acc out fin hp hle hlast hps
    rw [dumpPass] at hps
    cases hd : dump s start with
    | none =>
      simp only [hd] at hps
      exact absurd hps (by simp)
    | some evts =>
      simp only [hd] at hps
      obtain ⟨hpe, hgt⟩ := IH s (by simp) start evts hd
      cases hacc : (acc ++ evts).getLast? with
      | none =>
        simp only [hacc] at hps
        exact absurd hps (by simp)
      | some last =>
        simp only [hacc] at hps
        have IHrest : ∀ s2 ∈ rest, ∀ (st : Int) (ev2 : List Event),
            dump s2 st = some ev2 → strictChain st ev2 :=
          fun s2 hs2 => IH s2 (by simp [hs2])
        cases hevts : evts with
        | nil =>
          subst hevts
          rw [List.append_nil] at hacc hps
          have hlst : last.length = start := by
            rw [lastLenD, hacc] at hlast
            exact hlast
          rw [hlst] at hps
          exact ih IHrest start acc out fin hp hle hlast hps
        | cons e0 etl =>
          have hne : evts ≠ [] := by rw [hevts]; simp
          rw [List.getLast?_append_of_ne_nil _ hne] at hacc
          have hlastin : last ∈ evts := List.mem_of_mem_getLast? hacc
          have hstartlt : start < last.length := hgt last hlastin
          have hevlast : lastLenD evts start = last.length := by
            rw [lastLenD, hacc]
          have hevle : ∀ e ∈ evts, e.length ≤ last.length := by
            intro e he
            have := pairwise_le_lastLenD evts start hpe e he
            omega
          have hp2 : (acc ++ evts).Pairwise (fun a b => a.length < b.length) := by
            rw [List.pairwise_append]
            refine ⟨hp, hpe, ?_⟩
            intro a ha b hb
            have h1 := hle a ha
            have h2 := hgt b hb
            omega
          have hle2 : ∀ e ∈ acc ++ evts, e.length ≤ last.length := by
            intro e he
            rcases List.mem_append.mp he with h1 | h1
            · have := hle e h1
              omega
            · exact hevle e h1
          have hlast2 : lastLenD (acc ++ evts) last.length = last.length := by
            rw [lastLenD, List.getLast?_append_of_ne_nil _ hne, hacc]
          obtain ⟨hpo, ⟨new2, heq2, hnew2⟩, houtle, hfinle, hlout⟩ :=
            ih IHrest last.length (acc ++ evts) out fin hp2 hle2 hlast2 hps
          refine ⟨hpo, ⟨evts ++ new2, ?_, ?_⟩, houtle, by omega, hlout⟩
          · rw [heq2, List.append_assoc]
          · intro e he
            rcases List.mem_append.mp he with h1 | h1
            · exact hgt e h1
            · have := hnew2 e h1
              omega

theorem dumpCycles_chain (subs : List Signal)
    (IH : ∀ s ∈ subs, ∀ (start : Int) (evts : List Event),
      dump s start = some evts → strictChain start evts) :
    ∀ (n : Nat) (start : Int) (acc out : List Event),
      acc.Pairwise (fun a b => a.length < b.length) →
      (∀ e ∈ acc, e.length ≤ start) →
      lastLenD acc start = start →
      dumpCycles subs n start acc = some out →
      out.Pairwise (fun a b => a.length < b.length) ∧
      ∃ new, out = acc ++ new ∧ ∀ e ∈ new, start < e.length := by
  intro n
  induction n with
  | zero =>
    intro start acc out hp hle hlast hc
    rw [dumpCycles] at hc
    have h1 := Option.some.inj hc
    subst h1
    exact ⟨hp, ⟨[], by simp, by simp⟩⟩
  | succ m ihm =>
    intro start acc out hp hle hlast hc
    rw [dumpCycles] at hc
    cases hps : dumpPass subs start acc with
    | none =>
      simp only [hps] at hc
      exact absurd hc (by simp)
    | some pr =>
      obtain ⟨acc2, start2⟩ := pr
      simp only [hps] at hc
      obtain ⟨hp2, ⟨new1, heq1, hnew1⟩, hle2, hstle, hlast2⟩ :=
        dumpPass_chain subs IH start acc acc2 start2 hp hle hlast hps
      obtain ⟨hpo, new2, heq2, hnew2⟩ :=
        ihm start2 acc2 out hp2 hle2 hlast2 hc
      refine ⟨hpo, ⟨new1 ++ new2, ?_, ?_⟩⟩
      · rw [heq2, heq1, List.append_assoc]
      · intro e he
        rcases List.mem_append.mp he with h1 | h1
        · exact hnew1 e h1
        · have := hnew2 e h1
          omega

theorem dump_chain (sig : Signal) (hv : validSig sig = true) :
    ∀ (start : Int) (evts : List Event),
      dump sig start = some evts → strictChain start evts :=
  match sig, hv with
  | .atomic len st, hv => by
    intro start evts hd
    rw [dump] at hd
    have h1 := Option.some.inj hd
    subst h1
    rw [validSig] at hv
    simp only [Bool.and_eq_true, decide_eq_true_eq] at hv
    constructor
    · simp [dumpAtomic]
    · intro e he
      simp only [dumpAtomic, List.mem_singleton] at he
      subst he
      simp only []
      omega
  | .combined subs cyc, hv => by
    intro start evts hd
    rw [dump] at hd
    rw [validSig_combined] at hv
    obtain ⟨h1, h2, h3⟩ := hv
    have IH : ∀ s ∈ subs, ∀ (st : Int) (ev2 : List Event),
        dump s st = some ev2 → strictChain st ev2 :=
      fun s hs => dump_chain s (h3 s hs)
    obtain ⟨hpo, new, heq, hnew⟩ :=
      dumpCycles_chain subs IH cyc.toNat start [] evts (by simp) (by simp)
        rfl hd
    rw [List.nil_append] at heq
    subst heq
    exact ⟨hpo, hnew⟩
termination_by sizeOf sig
decreasing_by
  have := List.sizeOf_lt_of_mem hs
  simp only [Signal.combined.sizeOf_spec]
  omega

theorem collectEvents_mem_length (channels : List ChannelConfig)
    (raw : List QEvent) (h : collectEvents channels = some raw) :
    ∀ e ∈ raw, ∃ ch ∈ channels, ∃ evts, dump ch.signal 0 = some evts ∧
      ∃ ev ∈ evts, e.length = ev.length := by
  induction channels generalizing raw with
  | nil =>
    rw [collectEvents] at h
    have h1 := Option.some.inj h
    subst h1
    simp
  | cons ch rest ih =>
    rw [collectEvents] at h
    cases h1 : channelEvents ch with
    | none =>
      simp only [h1] at h
      exact absurd h (by simp)
    | some evq =>
      simp only [h1] at h
      cases h2 : collectEvents rest with
      | none =>
        simp only [h2] at h
        exact absurd h (by simp)
      | some rawr =>
        simp only [h2] at h
        have h3 := Option.some.inj h
        subst h3
        intro e he
        rcases List.mem_append.mp he with he1 | he2
        · rw [channelEvents] at h1
          cases hd : dump ch.signal 0 with
          | none =>
            simp only [hd, Option.map] at h1
            exact absurd h1 (by simp)
          | some evts =>
            rw [hd] at h1
            have h4 : tagEvents ch evts = evq := by simpa using h1
            subst h4
            rw [tagEvents] at he1
            obtain ⟨ev, hev, hev2⟩ := List.mem_map.mp he1
            refine ⟨ch, by simp, evts, hd, ev, hev, ?_⟩
            rw [← hev2]
        · obtain ⟨ch2, hch2, evts, hd, ev, hev, hlen⟩ := ih rawr h2 e he2
          exact ⟨ch2, by simp [hch2], evts, hd, ev, hev, hlen⟩

/-- C10: (a) dumping any signal that passed the source's construction
validation yields - whenever it returns at all - a sequence of strictly
increasing timestamps, each strictly greater than the start offset (so
no two events of one channel share a timestamp); and (b) on the queue
generated from validated channels, every duration the execution loop
passes to its interruptible wait is non-negative. -/
theorem c10_strict_chain_and_nonneg_waits :
    (∀ (sig : Signal) (T : Int) (evts : List Event),
      validSig sig = true → dump sig T = some evts →
      evts.Pairwise (fun a b => a.length < b.length) ∧
        ∀ e ∈ evts, T < e.length) ∧
    (∀ (channels : List ChannelConfig) (out : List QEvent)
      (cancel : Nat → Bool),
      (∀ ch ∈ channels, validSig ch.signal = true) →
      generate_event_queue channels = some out →
      ∀ t ∈ sleepTimes (runLoop cancel 0 0 out), 0 ≤ t) := by
  constructor
  · intro sig T evts hv hd
    exact dump_chain sig hv T evts hd
  · intro channels out cancel hv hq
    rw [generate_event_queue] at hq
    cases hc : collectEvents channels with
    | none =>
      rw [hc] at hq
      simp at hq
    | some raw =>
      rw [hc] at hq
      have h2 : sortEvents raw = out := by simpa using hq
      have hsorted : out.Pairwise (fun a b => a.length ≤ b.length) :=
        h2 ▸ sortEvents_pairwise raw
      have hperm : out.Perm raw := h2 ▸ sortEvents_perm raw
      have hpos : ∀ e ∈ out, (0 : Int) ≤ e.length := by
        intro e he
        obtain ⟨ch, hch, evts, hd, ev, hev, hlen⟩ :=
          collectEvents_mem_length channels raw hc e (hperm.mem_iff.mp he)
        have := (dump_chain ch.signal (hv ch hch) 0 evts hd).2 ev hev
        omega
      exact runLoop_sleepTimes_nonneg cancel 0 0 out hsorted hpos

/-- Witness for C10 on the atomic signal `(2, 1)`, its one-channel
config and the never-cancelling run. -/
theorem c10_strict_chain_and_nonneg_waits_witness :
    (validSig (Signal.atomic 2 1) = true ∧
     dump (Signal.atomic 2 1) 0 = some [Event.mk 2 1] ∧
     (([Event.mk 2 1] : List Event).Pairwise
        (fun a b => a.length < b.length) ∧
      ∀ e ∈ ([Event.mk 2 1] : List Event), (0 : Int) < e.length)) ∧
    ((∀ ch ∈ [ChannelConfig.mk "x" 1 (Signal.atomic 2 1)],
        validSig ch.signal = true) ∧
     generate_event_queue [ChannelConfig.mk "x" 1 (Signal.atomic 2 1)] =
       some [QEvent.mk 2 1 1 "x"] ∧
     ∀ t ∈ sleepTimes (runLoop (fun _ => false) 0 0 [QEvent.mk 2 1 1 "x"]),
       0 ≤ t) := by
  have hv : validSig (Signal.atomic 2 1) = true := by
    rw [validSig]
    decide
  have hd : dump (Signal.atomic 2 1) 0 = some [Event.mk 2 1] := by
    rw [dump]
    decide
  have hv2 : ∀ ch ∈ [ChannelConfig.mk "x" 1 (Signal.atomic 2 1)],
      validSig ch.signal = true := by
    intro ch hch
    simp only [List.mem_singleton] at hch
    subst hch
    exact hv
  have hq : generate_event_queue [ChannelConfig.mk "x" 1 (Signal.atomic 2 1)] =
      some [QEvent.mk 2 1 1 "x"] := by
    simp [generate_event_queue, collectEvents, channelEvents, hd, tagEvents,
      sortEvents, insertEv]
  exact ⟨⟨hv, hd, c10_strict_chain_and_nonneg_waits.1 (Signal.atomic 2 1) 0
      [Event.mk 2 1] hv hd⟩,
    ⟨hv2, hq, c10_strict_chain_and_nonneg_waits.2
      [ChannelConfig.mk "x" 1 (Signal.atomic 2 1)] [QEvent.mk 2 1 1 "x"]
      (fun _ => false) hv2 hq⟩⟩

/-- C7: a run config with no channels compiles to the empty schedule
without error, and running the thread on the empty queue dispatches no
event, issues the all-channels-off reset exactly once and leaves the
engine idle. -/
theorem c7_empty_config :
    generate_event_queue [] = some [] ∧
    ∀ cancel : Nat → Bool,
      runThread cancel [] =
        [Action.setIdle, Action.stopAll, Action.clearCancel, Action.setIdle] ∧
      (runThread cancel []).count Action.stopAll = 1 ∧
      ∀ e, Action.dispatch e ∉ runThread cancel [] := by
  refine ⟨rfl, fun cancel => ?_⟩
  have h : runThread cancel [] =
      [Action.setIdle, Action.stopAll, Action.clearCancel, Action.setIdle] := by
    simp [runThread, runLoop]
  refine ⟨h, ?_, ?_⟩
  · rw [h]; decide
  · intro e; rw [h]; simp

end BioSwitch
